import Mathlib

/-!
Verification of the case-style detection and conversion core of the
project-renamer program (src/main.rs).

Strings are modeled as `List Char`; the program only performs basic-latin
(ASCII) case conversion, matching `Char.toUpper` / `Char.toLower` /
`Char.isUpper` / `Char.isLower` from the Lean core library, which agree with
the Rust standard library on the ASCII range the program manipulates.

The Rust functions are embedded as follows:
- `SEPARATORS`                 (main.rs line 5)
- `CaseType`, `CaseInfo`, `NormalizedName` (the data model)
- `CaseInfo.all_cases`         (the 18-combination enumeration)
- `CaseInfo.detect`            (separator scan, split, style classification,
                                lowercasing), factored into the helper
                                definitions `detectSeparator`, `rawParts`,
                                `classifyParts`
- `CaseInfo.convert`           (rendering a NormalizedName under a CaseInfo);
                                a panic of the Rust code (`unwrap` on the
                                first character of an empty part) is modeled
                                by `Option`
- `replaceList`                (Rust `str::replace`: literal, non-overlapping,
                                left-to-right, all-occurrences replacement;
                                the empty pattern matches at every character
                                boundary, as in Rust)
- `transform_text`             (the 18 sequential replacement passes)
-/

/-- The fixed separator priority list (main.rs line 5):
`pub const SEPARATORS : [char; 5] = [' ', '_', '-', '.', '/'];` -/
def SEPARATORS : List Char := [' ', '_', '-', '.', '/']

/-- The capitalization style (main.rs `enum CaseType`). -/
inductive CaseType where
  | Capitalise
  | UpperCase
  | LowerCase
deriving DecidableEq

/-- A (separator, style) pair (main.rs `struct CaseInfo`). -/
structure CaseInfo where
  separator : Option Char
  part_type : CaseType
deriving DecidableEq

/-- The separator-free, lowercase, ordered list of name parts
(main.rs `struct NormalizedName`). -/
structure NormalizedName where
  parts : List (List Char)
deriving DecidableEq

/-- All 18 (style × separator) combinations, in the order produced by the
nested loops of `CaseInfo::all_cases` (main.rs lines 117-132): the style is
the outer loop (Capitalise, UpperCase, LowerCase); for each style, first the
separator-free combination is pushed, then one combination per separator in
`SEPARATORS` order. -/
def CaseInfo.all_cases : List CaseInfo :=
  [CaseType.Capitalise, CaseType.UpperCase, CaseType.LowerCase].flatMap
    (fun pt =>
      { separator := none, part_type := pt } ::
        SEPARATORS.map (fun s => { separator := some s, part_type := pt }))

/-- Rust `str::split(sep)` on a single character: the list of (possibly
empty) segments between occurrences of `sep`.  Splitting the empty string
yields one empty segment, as in Rust. -/
def splitOnChar (sep : Char) : List Char → List (List Char)
  | [] => [[]]
  | c :: cs =>
    if c = sep then
      [] :: splitOnChar sep cs
    else
      match splitOnChar sep cs with
      | [] => [[c]]
      | p :: ps => (c :: p) :: ps

/-- The separator scan of `CaseInfo::detect` (main.rs lines 135-141): the
first character of `SEPARATORS` that occurs anywhere in the name. -/
def detectSeparator (name : List Char) : Option Char :=
  SEPARATORS.find? (fun c => name.contains c)

/-- The raw parts of `CaseInfo::detect` (main.rs lines 143-147): split on the
detected separator, or the whole name as a single part. -/
def rawParts (name : List Char) : List (List Char) :=
  match detectSeparator name with
  | some sep => splitOnChar sep name
  | none => [name]

/-- The style classification of `CaseInfo::detect` (main.rs lines 149-155):
all characters uppercase → UpperCase, else all characters lowercase →
LowerCase, else Capitalise. -/
def classifyParts (parts : List (List Char)) : CaseType :=
  if parts.all (fun s => s.all (fun c => c.isUpper)) then
    CaseType.UpperCase
  else if parts.all (fun s => s.all (fun c => c.isLower)) then
    CaseType.LowerCase
  else
    CaseType.Capitalise

/-- `CaseInfo::detect` (main.rs lines 134-166). -/
def CaseInfo.detect (name : List Char) : CaseInfo × NormalizedName :=
  (⟨detectSeparator name, classifyParts (rawParts name)⟩,
   ⟨(rawParts name).map (fun s => s.map Char.toLower)⟩)

/-- The per-part style transform of `CaseInfo::convert` (main.rs lines
176-180).  For Capitalise, the Rust code unwraps the first character
(a panic on an empty part, modeled by `none`) and appends the remainder of
the part unchanged. -/
def stylePart : CaseType → List Char → Option (List Char)
  | CaseType.Capitalise, [] => none
  | CaseType.Capitalise, c :: cs => some (c.toUpper :: cs)
  | CaseType.UpperCase, p => some (p.map Char.toUpper)
  | CaseType.LowerCase, p => some (p.map Char.toLower)

/-- Applying `stylePart` to every part, propagating a panic (Rust iterates
`map` over the parts; the first empty part under Capitalise panics). -/
def styleParts (ct : CaseType) : List (List Char) → Option (List (List Char))
  | [] => some []
  | p :: ps => do
    let q ← stylePart ct p
    let qs ← styleParts ct ps
    return q :: qs

/-- `Vec::join`: concatenate the parts with the separator string between
consecutive parts. -/
def joinSep (sep : List Char) : List (List Char) → List Char
  | [] => []
  | [p] => p
  | p :: q :: ps => p ++ sep ++ joinSep sep (q :: ps)

/-- The separator string of `CaseInfo::convert` (main.rs lines 169-173): the
one-character string for a separator, the empty string for none. -/
def sepStrOf : Option Char → List Char
  | some s => [s]
  | none => []

/-- `CaseInfo::convert` (main.rs lines 168-183): style-transform every part
and join with the separator string. -/
def CaseInfo.convert (ci : CaseInfo) (nn : NormalizedName) : Option (List Char) := do
  let qs ← styleParts ci.part_type nn.parts
  return joinSep (sepStrOf ci.separator) qs

/-- Boolean test: does `s` start with `pat`? -/
def startsWithPat : List Char → List Char → Bool
  | [], _ => true
  | _ :: _, [] => false
  | a :: pa, b :: bs => a == b && startsWithPat pa bs

/-- Rust `str::replace` for a non-empty pattern: scan left to right; at each
position, if the pattern matches, emit the replacement and skip past the
match (non-overlapping); otherwise emit the character and move on.  The
recursion is driven by a fuel argument (the scan consumes at least one
character per step, so any fuel at least the length of the string gives the
replacement itself). -/
def replaceFuel (pat rep : List Char) : Nat → List Char → List Char
  | _, [] => []
  | 0, s => s
  | fuel + 1, c :: cs =>
    if startsWithPat pat (c :: cs) then
      rep ++ replaceFuel pat rep fuel (cs.drop (pat.length - 1))
    else
      c :: replaceFuel pat rep fuel cs

/-- Rust `str::replace`: for the empty pattern, a match occurs at every
character boundary, so the replacement is inserted before every character
and at the end; otherwise the left-to-right scan `replaceFuel`. -/
def replaceList (pat rep s : List Char) : List Char :=
  match pat with
  | [] => rep ++ s.flatMap (fun c => c :: rep)
  | _ :: _ => replaceFuel pat rep s.length s

/-- `transform_text` (main.rs lines 86-98): fold the 18 replacement passes
over the input, each pass replacing the old name rendered under that
combination by the new name rendered under the same combination, operating
on the output of the previous pass.  A panic of `convert` (empty part under
Capitalise) propagates. -/
def transform_text (input : List Char) (old_name new_name : NormalizedName) :
    Option (List Char) :=
  CaseInfo.all_cases.foldlM
    (fun out case_info => do
      let search_for ← case_info.convert old_name
      let replace_with ← case_info.convert new_name
      return replaceList search_for replace_with out)
    input

/-- Total variant of the Capitalise per-part transform (uppercase the first
character, keep the remainder); used in closed-form lemmas about
`styleParts` on part lists with no empty part. -/
def capPartTotal : List Char → List Char
  | [] => []
  | c :: cs => c.toUpper :: cs

/-- Shape of a string that is a single styled part: all lowercase, or all
uppercase, or an uppercase character followed by lowercase characters.
Used in the round-trip analysis of single-part renderings. -/
def goodSingle (q : List Char) : Prop :=
  (∀ c ∈ q, c.isLower = true) ∨ (∀ c ∈ q, c.isUpper = true) ∨
    (∃ c cs, q = c :: cs ∧ c.isUpper = true ∧ ∀ d ∈ cs, d.isLower = true)

/-- Following the spec's words (§4.1, step 1): the separator is the first of
`' '`, `'_'`, `'-'`, `'.'`, `'/'` — tried in that priority order — that
appears anywhere in the name; if none appears the separator is none. -/
def firstSeparator (name : List Char) : Option Char :=
  if name.contains ' ' then some ' '
  else if name.contains '_' then some '_'
  else if name.contains '-' then some '-'
  else if name.contains '.' then some '.'
  else if name.contains '/' then some '/'
  else none

/-- Following the spec's words (§4.2): the fixed 18-combination grid written
out in its stated deterministic order — style outer loop (Capitalize,
UpperCase, LowerCase), separator inner loop (none, space, underscore,
hyphen, dot, slash). -/
def specCombinations : List CaseInfo :=
  [⟨none, CaseType.Capitalise⟩,
   ⟨some ' ', CaseType.Capitalise⟩,
   ⟨some '_', CaseType.Capitalise⟩,
   ⟨some '-', CaseType.Capitalise⟩,
   ⟨some '.', CaseType.Capitalise⟩,
   ⟨some '/', CaseType.Capitalise⟩,
   ⟨none, CaseType.UpperCase⟩,
   ⟨some ' ', CaseType.UpperCase⟩,
   ⟨some '_', CaseType.UpperCase⟩,
   ⟨some '-', CaseType.UpperCase⟩,
   ⟨some '.', CaseType.UpperCase⟩,
   ⟨some '/', CaseType.UpperCase⟩,
   ⟨none, CaseType.LowerCase⟩,
   ⟨some ' ', CaseType.LowerCase⟩,
   ⟨some '_', CaseType.LowerCase⟩,
   ⟨some '-', CaseType.LowerCase⟩,
   ⟨some '.', CaseType.LowerCase⟩,
   ⟨some '/', CaseType.LowerCase⟩]

/-- Following the spec's words (§4.2, `transform_text`): apply one
replacement pass per combination, in list order; each pass renders the old
and the new name under that combination and performs a literal,
non-overlapping, left-to-right, all-occurrences replacement inside the
running output of the previous passes (a rendering failure aborts). -/
def applyReplacePasses :
    List CaseInfo → NormalizedName → NormalizedName → List Char → Option (List Char)
  | [], _, _, running => some running
  | ci :: rest, o, n, running =>
    match ci.convert o, ci.convert n with
    | some s, some r => applyReplacePasses rest o n (replaceList s r running)
    | _, _ => none

/-- Following the spec's words (§4.2): `transform_text` as the sequential
application of the 18 replacement passes of the fixed grid. -/
def specTransformText (input : List Char) (o n : NormalizedName) : Option (List Char) :=
  applyReplacePasses specCombinations o n input

/-! ### Character-level facts (basic-latin case conversion) -/

theorem char_bounded (P : Char → Prop) [DecidablePred P]
    (h : ∀ n, n < 123 → P (Char.ofNat n)) {c : Char} (hc : c.toNat < 123) : P c := by
  have h2 := h c.toNat hc
  rwa [Char.ofNat_toNat] at h2

theorem isLower_iff_toNat {c : Char} : c.isLower = true ↔ 97 ≤ c.toNat ∧ c.toNat ≤ 122 := by
  simp [Char.isLower, UInt32.le_def, BitVec.le_def]
  rfl

theorem isUpper_iff_toNat {c : Char} : c.isUpper = true ↔ 65 ≤ c.toNat ∧ c.toNat ≤ 90 := by
  simp [Char.isUpper, UInt32.le_def, BitVec.le_def]
  rfl

theorem toLower_eq_of_isLower {c : Char} (h : c.isLower = true) : c.toLower = c := by
  refine char_bounded (fun c => c.isLower = true → c.toLower = c) (by decide) ?_ h
  have := (isLower_iff_toNat.mp h).2
  omega

theorem toUpper_isUpper {c : Char} (h : c.isLower = true) : c.toUpper.isUpper = true := by
  refine char_bounded (fun c => c.isLower = true → c.toUpper.isUpper = true) (by decide) ?_ h
  have := (isLower_iff_toNat.mp h).2
  omega

theorem toLower_toUpper {c : Char} (h : c.isLower = true) : c.toUpper.toLower = c := by
  refine char_bounded (fun c => c.isLower = true → c.toUpper.toLower = c) (by decide) ?_ h
  have := (isLower_iff_toNat.mp h).2
  omega

theorem toUpper_toLower {c : Char} (h : c.isUpper = true) : c.toLower.toUpper = c := by
  refine char_bounded (fun c => c.isUpper = true → c.toLower.toUpper = c) (by decide) ?_ h
  have := (isUpper_iff_toNat.mp h).2
  omega

theorem isLower_not_isUpper {c : Char} (h : c.isLower = true) : c.isUpper = false := by
  cases hu : c.isUpper with
  | false => rfl
  | true =>
    have h1 := isLower_iff_toNat.mp h
    have h2 := isUpper_iff_toNat.mp hu
    omega

theorem isUpper_not_isLower {c : Char} (h : c.isUpper = true) : c.isLower = false := by
  cases hl : c.isLower with
  | false => rfl
  | true =>
    have h1 := isLower_iff_toNat.mp hl
    have h2 := isUpper_iff_toNat.mp h
    omega

theorem toLower_eq_of_not_isUpper {c : Char} (h : c.isUpper = false) : c.toLower = c := by
  have hn : ¬(65 ≤ c.toNat ∧ c.toNat ≤ 90) := by
    intro hc
    rw [isUpper_iff_toNat.mpr hc] at h
    exact Bool.true_eq_false.mp h
  simp only [Char.toLower]
  rw [if_neg]
  intro hc
  exact hn ⟨hc.1, hc.2⟩

theorem toUpper_eq_of_not_isLower {c : Char} (h : c.isLower = false) : c.toUpper = c := by
  have hn : ¬(97 ≤ c.toNat ∧ c.toNat ≤ 122) := by
    intro hc
    rw [isLower_iff_toNat.mpr hc] at h
    exact Bool.true_eq_false.mp h
  simp only [Char.toUpper]
  rw [if_neg]
  intro hc
  exact hn ⟨hc.1, hc.2⟩

/-! ### Facts about `joinSep`, `splitOnChar`, `detectSeparator` -/

theorem joinSep_cons_cons (sep : List Char) (p q : List Char) (ps : List (List Char)) :
    joinSep sep (p :: q :: ps) = p ++ sep ++ joinSep sep (q :: ps) := rfl

theorem mem_joinSep {ch : Char} {sep : List Char} :
    ∀ {ps : List (List Char)}, ch ∈ joinSep sep ps →
      (∃ p ∈ ps, ch ∈ p) ∨ ch ∈ sep
  | [], h => by simp [joinSep] at h
  | [p], h => by
    simp only [joinSep] at h
    exact Or.inl ⟨p, by simp, h⟩
  | p :: q :: ps, h => by
    rw [joinSep_cons_cons] at h
    rcases List.mem_append.mp h with h1 | h2
    · rcases List.mem_append.mp h1 with h3 | h4
      · exact Or.inl ⟨p, by simp, h3⟩
      · exact Or.inr h4
    · rcases mem_joinSep h2 with ⟨r, hr, hcr⟩ | hs
      · exact Or.inl ⟨r, by simp [hr], hcr⟩
      · exact Or.inr hs

theorem sep_mem_joinSep {s : Char} {ps : List (List Char)} (h : 2 ≤ ps.length) :
    s ∈ joinSep [s] ps := by
  match ps, h with
  | p :: q :: ps, _ =>
    rw [joinSep_cons_cons]
    simp

theorem joinSep_ne_nil_of_head_ne_nil {sep : List Char} {p : List Char}
    {ps : List (List Char)} (hp : p ≠ []) : joinSep sep (p :: ps) ≠ [] := by
  cases ps with
  | nil => simpa [joinSep] using hp
  | cons q qs =>
    rw [joinSep_cons_cons]
    simp [hp]

theorem splitOnChar_ne_nil (sep : Char) (n : List Char) : splitOnChar sep n ≠ [] := by
  induction n with
  | nil => simp [splitOnChar]
  | cons c cs ih =>
    simp only [splitOnChar]
    split
    · simp
    · cases h : splitOnChar sep cs with
      | nil => simp
      | cons p ps => simp

theorem splitOnChar_of_not_mem {sep : Char} :
    ∀ {n : List Char}, sep ∉ n → splitOnChar sep n = [n]
  | [], _ => rfl
  | c :: cs, h => by
    have hc : c ≠ sep := fun he => h (he ▸ List.mem_cons_self c cs)
    have hcs : sep ∉ cs := fun hm => h (List.mem_cons_of_mem c hm)
    simp only [splitOnChar, if_neg hc, splitOnChar_of_not_mem hcs]

theorem splitOnChar_append {sep : Char} :
    ∀ {p : List Char}, sep ∉ p → ∀ rest : List Char,
      splitOnChar sep (p ++ sep :: rest) = p :: splitOnChar sep rest
  | [], _, rest => by simp [splitOnChar]
  | c :: p, h, rest => by
    have hc : c ≠ sep := fun he => h (he ▸ List.mem_cons_self c p)
    have hp : sep ∉ p := fun hm => h (List.mem_cons_of_mem c hm)
    have ih := splitOnChar_append hp rest
    simp only [List.cons_append, splitOnChar, if_neg hc, List.append_eq, ih]

theorem splitOnChar_joinSep {sep : Char} :
    ∀ {ps : List (List Char)}, ps ≠ [] → (∀ p ∈ ps, sep ∉ p) →
      splitOnChar sep (joinSep [sep] ps) = ps
  | [], h, _ => absurd rfl h
  | [p], _, hm => by
    simp only [joinSep]
    exact splitOnChar_of_not_mem (hm p (by simp))
  | p :: q :: ps, _, hm => by
    rw [joinSep_cons_cons]
    have h1 : sep ∉ p := hm p (by simp)
    have ih := @splitOnChar_joinSep sep (q :: ps) (by simp)
      (fun r hr => hm r (by simp [hr]))
    have : p ++ [sep] ++ joinSep [sep] (q :: ps) = p ++ sep :: joinSep [sep] (q :: ps) := by
      simp
    rw [this, splitOnChar_append h1, ih]

theorem joinSep_splitOnChar (sep : Char) :
    ∀ n : List Char, joinSep [sep] (splitOnChar sep n) = n := by
  intro n
  induction n with
  | nil => rfl
  | cons c cs ih =>
    simp only [splitOnChar]
    by_cases hc : c = sep
    · rw [if_pos hc]
      cases h : splitOnChar sep cs with
      | nil => exact absurd h (splitOnChar_ne_nil sep cs)
      | cons p ps =>
        rw [joinSep_cons_cons]
        rw [h] at ih
        simp [ih, hc]
    · rw [if_neg hc]
      cases h : splitOnChar sep cs with
      | nil => exact absurd h (splitOnChar_ne_nil sep cs)
      | cons p ps =>
        rw [h] at ih
        cases ps with
        | nil =>
          simp only [joinSep] at ih ⊢
          simp [ih]
        | cons r rs =>
          rw [joinSep_cons_cons] at ih ⊢
          simp only [List.cons_append, List.cons.injEq] at ih ⊢
          simp [ih]

theorem joinSep_map (f : Char → Char) (sep : List Char) :
    ∀ ps : List (List Char),
      (joinSep sep ps).map f = joinSep (sep.map f) (ps.map (fun p => p.map f))
  | [] => rfl
  | [p] => rfl
  | p :: q :: ps => by
    rw [joinSep_cons_cons]
    simp only [List.map_append, List.map_cons]
    rw [joinSep_map f sep (q :: ps)]
    rfl

theorem find?_unique {α : Type} {p : α → Bool} {a : α} :
    ∀ {l : List α}, a ∈ l → p a = true → (∀ x ∈ l, p x = true → x = a) →
      l.find? p = some a
  | [], h, _, _ => absurd h (List.not_mem_nil a)
  | x :: l, h, hp, hu => by
    cases hx : p x with
    | true =>
      rw [List.find?_cons_of_pos _ hx]
      rw [hu x (by simp) hx]
    | false =>
      rw [List.find?_cons_of_neg _ (by simp [hx])]
      have hxa : x ≠ a := fun he => by rw [he, hp] at hx; exact Bool.true_eq_false.mp hx
      have hal : a ∈ l := by
        rcases List.mem_cons.mp h with h1 | h2
        · exact absurd h1.symm hxa
        · exact h2
      exact find?_unique hal hp (fun y hy hpy => hu y (by simp [hy]) hpy)

theorem contains_iff_mem {n : List Char} {c : Char} : n.contains c = true ↔ c ∈ n := by
  simp [List.contains, List.elem_iff]

theorem detectSeparator_eq_none {n : List Char} (h : ∀ t ∈ SEPARATORS, t ∉ n) :
    detectSeparator n = none := by
  rw [detectSeparator, List.find?_eq_none]
  intro t ht
  rw [Bool.not_eq_true, Bool.eq_false_iff]
  intro hc
  exact h t ht (contains_iff_mem.mp hc)

theorem detectSeparator_eq_some {n : List Char} {s : Char} (hs : s ∈ SEPARATORS)
    (hmem : s ∈ n) (huniq : ∀ t ∈ SEPARATORS, t ∈ n → t = s) :
    detectSeparator n = some s := by
  rw [detectSeparator]
  refine find?_unique hs (contains_iff_mem.mpr hmem) ?_
  intro t ht hpt
  exact huniq t ht (contains_iff_mem.mp hpt)

/-! ### Facts about `startsWithPat`, `replaceFuel`, `replaceList` -/

theorem startsWithPat_iff :
    ∀ (pat s : List Char), startsWithPat pat s = true ↔ ∃ t, s = pat ++ t
  | [], s => by simp [startsWithPat]
  | a :: pa, [] => by simp [startsWithPat]
  | a :: pa, b :: bs => by
    simp only [startsWithPat, Bool.and_eq_true, beq_iff_eq]
    rw [startsWithPat_iff pa bs]
    constructor
    · rintro ⟨rfl, t, rfl⟩
      exact ⟨t, rfl⟩
    · rintro ⟨t, h⟩
      injection h with h1 h2
      exact ⟨h1.symm, t, h2⟩

theorem replaceFuel_self (pat : List Char) (hp : pat ≠ []) :
    ∀ (fuel : Nat) (s : List Char), s.length ≤ fuel → replaceFuel pat pat fuel s = s := by
  intro fuel
  induction fuel with
  | zero =>
    intro s hs
    cases s with
    | nil => rfl
    | cons c cs => simp at hs
  | succ f ih =>
    intro s hs
    cases s with
    | nil => rfl
    | cons c cs =>
      rw [replaceFuel]
      by_cases h : startsWithPat pat (c :: cs) = true
      · rw [if_pos h]
        obtain ⟨t, ht⟩ := (startsWithPat_iff pat (c :: cs)).mp h
        obtain ⟨d, pd, rfl⟩ : ∃ d pd, pat = d :: pd := by
          cases pat with
          | nil => exact absurd rfl hp
          | cons d pd => exact ⟨d, pd, rfl⟩
        have hlen : (c :: cs).length = (d :: pd).length + t.length := by
          rw [ht, List.length_append]
        have hdrop : cs.drop ((d :: pd).length - 1) = t := by
          have h1 : (c :: cs).drop (d :: pd).length = t := by
            rw [ht, List.drop_left]
          simpa [List.length_cons] using h1
        rw [hdrop, ih t (by simp at hlen hs; omega), ht]
      · rw [if_neg h]
        rw [ih cs (by simp at hs; omega)]

theorem replaceList_self (pat s : List Char) : replaceList pat pat s = s := by
  cases pat with
  | nil =>
    simp only [replaceList]
    induction s with
    | nil => rfl
    | cons c cs ih =>
      simp only [List.flatMap_cons, List.nil_append] at ih ⊢
      simp [ih]
  | cons d pd =>
    simp only [replaceList]
    exact replaceFuel_self (d :: pd) (by simp) s.length s (Nat.le_refl _)

/-! ### Facts about `classifyParts` and `styleParts` -/

theorem all_all_isUpper_iff {ps : List (List Char)} :
    ps.all (fun s => s.all (fun c => c.isUpper)) = true ↔
      ∀ p ∈ ps, ∀ c ∈ p, c.isUpper = true := by
  simp [List.all_eq_true]

theorem all_all_isLower_iff {ps : List (List Char)} :
    ps.all (fun s => s.all (fun c => c.isLower)) = true ↔
      ∀ p ∈ ps, ∀ c ∈ p, c.isLower = true := by
  simp [List.all_eq_true]

theorem classifyParts_eq_upper {ps : List (List Char)} :
    classifyParts ps = CaseType.UpperCase ↔ ∀ p ∈ ps, ∀ c ∈ p, c.isUpper = true := by
  rw [classifyParts]
  split_ifs with h1 h2
  · exact iff_of_true rfl (all_all_isUpper_iff.mp h1)
  · exact iff_of_false (by decide) (fun hh => h1 (all_all_isUpper_iff.mpr hh))
  · exact iff_of_false (by decide) (fun hh => h1 (all_all_isUpper_iff.mpr hh))

theorem classifyParts_eq_lower {ps : List (List Char)} :
    classifyParts ps = CaseType.LowerCase ↔
      (¬∀ p ∈ ps, ∀ c ∈ p, c.isUpper = true) ∧ (∀ p ∈ ps, ∀ c ∈ p, c.isLower = true) := by
  rw [classifyParts]
  split_ifs with h1 h2
  · exact iff_of_false (by decide) (fun hh => hh.1 (all_all_isUpper_iff.mp h1))
  · exact iff_of_true rfl
      ⟨fun hh => h1 (all_all_isUpper_iff.mpr hh), all_all_isLower_iff.mp h2⟩
  · exact iff_of_false (by decide) (fun hh => h2 (all_all_isLower_iff.mpr hh.2))

theorem classifyParts_eq_cap {ps : List (List Char)} :
    classifyParts ps = CaseType.Capitalise ↔
      (¬∀ p ∈ ps, ∀ c ∈ p, c.isUpper = true) ∧
        (¬∀ p ∈ ps, ∀ c ∈ p, c.isLower = true) := by
  rw [classifyParts]
  split_ifs with h1 h2
  · exact iff_of_false (by decide) (fun hh => hh.1 (all_all_isUpper_iff.mp h1))
  · exact iff_of_false (by decide) (fun hh => hh.2 (all_all_isLower_iff.mp h2))
  · exact iff_of_true rfl
      ⟨fun hh => h1 (all_all_isUpper_iff.mpr hh), fun hh => h2 (all_all_isLower_iff.mpr hh)⟩

theorem styleParts_lower (ps : List (List Char)) :
    styleParts CaseType.LowerCase ps = some (ps.map (fun p => p.map Char.toLower)) := by
  induction ps with
  | nil => rfl
  | cons p ps ih => simp [styleParts, stylePart, ih]

theorem styleParts_upper (ps : List (List Char)) :
    styleParts CaseType.UpperCase ps = some (ps.map (fun p => p.map Char.toUpper)) := by
  induction ps with
  | nil => rfl
  | cons p ps ih => simp [styleParts, stylePart, ih]

theorem styleParts_cap {ps : List (List Char)} (h : ∀ p ∈ ps, p ≠ []) :
    styleParts CaseType.Capitalise ps = some (ps.map capPartTotal) := by
  induction ps with
  | nil => rfl
  | cons p ps ih =>
    obtain ⟨c, cs, rfl⟩ : ∃ c cs, p = c :: cs := by
      cases p with
      | nil => exact absurd rfl (h [] (by simp))
      | cons c cs => exact ⟨c, cs, rfl⟩
    have ih2 := ih (fun q hq => h q (by simp [hq]))
    simp [styleParts, stylePart, capPartTotal, ih2]

theorem styleParts_cap_none_iff :
    ∀ {ps : List (List Char)}, styleParts CaseType.Capitalise ps = none ↔ [] ∈ ps
  | [] => by simp [styleParts]
  | [] :: ps => by simp [styleParts, stylePart]
  | (c :: cs) :: ps => by
    have ih := @styleParts_cap_none_iff ps
    cases h : styleParts CaseType.Capitalise ps with
    | none =>
      rw [h] at ih
      simp only [styleParts, stylePart, h]
      simp [ih.mp rfl]
    | some qs =>
      rw [h] at ih
      have hnot : [] ∉ ps := fun hm => Option.noConfusion (ih.mpr hm)
      simp only [styleParts, stylePart, h]
      simp [hnot]

theorem styleParts_eq_none_iff {ct : CaseType} {ps : List (List Char)} :
    styleParts ct ps = none ↔ ct = CaseType.Capitalise ∧ [] ∈ ps := by
  cases ct with
  | Capitalise => rw [styleParts_cap_none_iff]; simp
  | UpperCase => rw [styleParts_upper]; simp
  | LowerCase => rw [styleParts_lower]; simp

/-! ### Map-level case-conversion facts -/

theorem map_toLower_eq_self {p : List Char} (h : ∀ c ∈ p, c.isLower = true) :
    p.map Char.toLower = p := by
  induction p with
  | nil => rfl
  | cons c cs ih =>
    simp only [List.map_cons, toLower_eq_of_isLower (h c (by simp)),
      ih (fun d hd => h d (by simp [hd]))]

theorem map_toUpper_map_toLower {p : List Char} (h : ∀ c ∈ p, c.isUpper = true) :
    (p.map Char.toLower).map Char.toUpper = p := by
  induction p with
  | nil => rfl
  | cons c cs ih =>
    simp only [List.map_cons, toUpper_toLower (h c (by simp)),
      ih (fun d hd => h d (by simp [hd]))]

theorem map_toLower_map_toUpper {p : List Char} (h : ∀ c ∈ p, c.isLower = true) :
    (p.map Char.toUpper).map Char.toLower = p := by
  induction p with
  | nil => rfl
  | cons c cs ih =>
    simp only [List.map_cons, toLower_toUpper (h c (by simp)),
      ih (fun d hd => h d (by simp [hd]))]

theorem map_toUpper_all_isUpper {p : List Char} (h : ∀ c ∈ p, c.isLower = true) :
    ∀ c ∈ p.map Char.toUpper, c.isUpper = true := by
  intro c hc
  rw [List.mem_map] at hc
  obtain ⟨d, hd, rfl⟩ := hc
  exact toUpper_isUpper (h d hd)

theorem sep_props : ∀ s ∈ SEPARATORS, s.isUpper = false ∧ s.isLower = false ∧
    s.toLower = s := by decide

/-! ### Provenance facts: styled parts of a lowercase NormalizedName -/

theorem map_eq_self {α : Type} {f : α → α} :
    ∀ {l : List α}, (∀ a ∈ l, f a = a) → l.map f = l
  | [], _ => rfl
  | a :: l, h => by
    rw [List.map_cons, h a (by simp), map_eq_self (fun b hb => h b (by simp [hb]))]

theorem styleParts_cons_inv {ct : CaseType} {p : List Char} {ps : List (List Char)}
    {qs : List (List Char)} (h : styleParts ct (p :: ps) = some qs) :
    ∃ q qs2, stylePart ct p = some q ∧ styleParts ct ps = some qs2 ∧ qs = q :: qs2 := by
  cases h1 : stylePart ct p with
  | none => simp [styleParts, h1] at h
  | some q =>
    cases h2 : styleParts ct ps with
    | none => simp [styleParts, h1, h2] at h
    | some qs2 =>
      rw [styleParts, h1, h2] at h
      simp at h
      exact ⟨q, qs2, rfl, rfl, h.symm⟩

theorem stylePart_alpha {ct : CaseType} {p q : List Char}
    (h : stylePart ct p = some q) (hl : ∀ c ∈ p, c.isLower = true) :
    ∀ c ∈ q, c.isUpper = true ∨ c.isLower = true := by
  cases ct with
  | LowerCase =>
    rw [stylePart] at h
    obtain rfl : p.map Char.toLower = q := Option.some_inj.mp h
    rw [map_eq_self (fun c hc => toLower_eq_of_isLower (hl c hc))]
    exact fun c hc => Or.inr (hl c hc)
  | UpperCase =>
    rw [stylePart] at h
    obtain rfl : p.map Char.toUpper = q := Option.some_inj.mp h
    exact fun c hc => Or.inl (map_toUpper_all_isUpper hl c hc)
  | Capitalise =>
    cases p with
    | nil => simp [stylePart] at h
    | cons c cs =>
      obtain rfl : c.toUpper :: cs = q := Option.some_inj.mp h
      intro d hd
      rcases List.mem_cons.mp hd with rfl | hdc
      · exact Or.inl (toUpper_isUpper (hl c (by simp)))
      · exact Or.inr (hl d (by simp [hdc]))

theorem stylePart_toLower {ct : CaseType} {p q : List Char}
    (h : stylePart ct p = some q) (hl : ∀ c ∈ p, c.isLower = true) :
    q.map Char.toLower = p := by
  cases ct with
  | LowerCase =>
    rw [stylePart] at h
    obtain rfl : p.map Char.toLower = q := Option.some_inj.mp h
    rw [map_eq_self (fun c hc => toLower_eq_of_isLower (hl c hc))]
    exact map_eq_self (fun c hc => toLower_eq_of_isLower (hl c hc))
  | UpperCase =>
    rw [stylePart] at h
    obtain rfl : p.map Char.toUpper = q := Option.some_inj.mp h
    exact map_toLower_map_toUpper hl
  | Capitalise =>
    cases p with
    | nil => simp [stylePart] at h
    | cons c cs =>
      obtain rfl : c.toUpper :: cs = q := Option.some_inj.mp h
      rw [List.map_cons, toLower_toUpper (hl c (by simp)),
        map_eq_self (fun d hd => toLower_eq_of_isLower (hl d (by simp [hd])))]

theorem stylePart_good {ct : CaseType} {p q : List Char}
    (h : stylePart ct p = some q) (hl : ∀ c ∈ p, c.isLower = true) : goodSingle q := by
  cases ct with
  | LowerCase =>
    rw [stylePart] at h
    obtain rfl : p.map Char.toLower = q := Option.some_inj.mp h
    rw [map_eq_self (fun c hc => toLower_eq_of_isLower (hl c hc))]
    exact Or.inl hl
  | UpperCase =>
    rw [stylePart] at h
    obtain rfl : p.map Char.toUpper = q := Option.some_inj.mp h
    exact Or.inr (Or.inl (map_toUpper_all_isUpper hl))
  | Capitalise =>
    cases p with
    | nil => simp [stylePart] at h
    | cons c cs =>
      obtain rfl : c.toUpper :: cs = q := Option.some_inj.mp h
      exact Or.inr (Or.inr ⟨c.toUpper, cs, rfl, toUpper_isUpper (hl c (by simp)),
        fun d hd => hl d (by simp [hd])⟩)

theorem styleParts_alpha {ct : CaseType} :
    ∀ {ps qs : List (List Char)}, styleParts ct ps = some qs →
      (∀ p ∈ ps, ∀ c ∈ p, c.isLower = true) →
      ∀ q ∈ qs, ∀ c ∈ q, c.isUpper = true ∨ c.isLower = true := by
  intro ps
  induction ps with
  | nil =>
    intro qs h _
    obtain rfl : ([] : List (List Char)) = qs := Option.some_inj.mp h
    simp
  | cons p ps ih =>
    intro qs h hl
    obtain ⟨q, qs2, h1, h2, rfl⟩ := styleParts_cons_inv h
    intro r hr
    rcases List.mem_cons.mp hr with rfl | hr2
    · exact stylePart_alpha h1 (hl p (by simp))
    · exact ih h2 (fun x hx => hl x (by simp [hx])) r hr2

theorem styleParts_map_toLower {ct : CaseType} :
    ∀ {ps qs : List (List Char)}, styleParts ct ps = some qs →
      (∀ p ∈ ps, ∀ c ∈ p, c.isLower = true) →
      qs.map (fun q => q.map Char.toLower) = ps := by
  intro ps
  induction ps with
  | nil =>
    intro qs h _
    obtain rfl : ([] : List (List Char)) = qs := Option.some_inj.mp h
    rfl
  | cons p ps ih =>
    intro qs h hl
    obtain ⟨q, qs2, h1, h2, rfl⟩ := styleParts_cons_inv h
    rw [List.map_cons, stylePart_toLower h1 (hl p (by simp)),
      ih h2 (fun x hx => hl x (by simp [hx]))]

theorem styleParts_length {ct : CaseType} :
    ∀ {ps qs : List (List Char)}, styleParts ct ps = some qs → qs.length = ps.length := by
  intro ps
  induction ps with
  | nil =>
    intro qs h
    obtain rfl : ([] : List (List Char)) = qs := Option.some_inj.mp h
    rfl
  | cons p ps ih =>
    intro qs h
    obtain ⟨q, qs2, _, h2, rfl⟩ := styleParts_cons_inv h
    simp [ih h2]

theorem convert_of_styleParts {ci : CaseInfo} {ps qs : List (List Char)}
    (h : styleParts ci.part_type ps = some qs) :
    CaseInfo.convert ci ⟨ps⟩ = some (joinSep (sepStrOf ci.separator) qs) := by
  simp [CaseInfo.convert, h]

theorem goodSingle_alpha {q : List Char} (hg : goodSingle q) :
    ∀ c ∈ q, c.isUpper = true ∨ c.isLower = true := by
  rcases hg with hl | hu | ⟨c, cs, rfl, hc, hcs⟩
  · exact fun c hc => Or.inr (hl c hc)
  · exact fun c hc => Or.inl (hu c hc)
  · intro d hd
    rcases List.mem_cons.mp hd with rfl | hdc
    · exact Or.inl hc
    · exact Or.inr (hcs d hdc)

theorem joinSep_all {P : Char → Prop} {sep : List Char} {qs : List (List Char)}
    (hq : ∀ q ∈ qs, ∀ c ∈ q, P c) (hsep : ∀ c ∈ sep, P c) :
    ∀ c ∈ joinSep sep qs, P c := by
  intro c hc
  rcases mem_joinSep hc with ⟨q, hq2, hcq⟩ | hs
  · exact hq q hq2 c hcq
  · exact hsep c hs

/-! ### Detection on styled renderings -/

theorem detect_no_sep {n : List Char}
    (halpha : ∀ c ∈ n, c.isUpper = true ∨ c.isLower = true) :
    detectSeparator n = none ∧ rawParts n = [n] := by
  have hds : detectSeparator n = none := by
    refine detectSeparator_eq_none (fun t ht hmem => ?_)
    obtain ⟨h1, h2, _⟩ := sep_props t ht
    rcases halpha t hmem with hu | hl
    · rw [h1] at hu
      exact Bool.true_eq_false.mp hu.symm
    · rw [h2] at hl
      exact Bool.true_eq_false.mp hl.symm
  exact ⟨hds, by rw [rawParts, hds]⟩

theorem detect_of_joinSep {s : Char} {qs : List (List Char)} (hs : s ∈ SEPARATORS)
    (h2 : 2 ≤ qs.length)
    (halpha : ∀ q ∈ qs, ∀ c ∈ q, c.isUpper = true ∨ c.isLower = true) :
    detectSeparator (joinSep [s] qs) = some s ∧ rawParts (joinSep [s] qs) = qs := by
  have hnotin : ∀ q ∈ qs, s ∉ q := by
    intro q hq hmem
    obtain ⟨h1, hl1, _⟩ := sep_props s hs
    rcases halpha q hq s hmem with hu | hl
    · rw [h1] at hu
      exact Bool.true_eq_false.mp hu.symm
    · rw [hl1] at hl
      exact Bool.true_eq_false.mp hl.symm
  have hds : detectSeparator (joinSep [s] qs) = some s := by
    refine detectSeparator_eq_some hs (sep_mem_joinSep h2) ?_
    intro t ht hmem
    rcases mem_joinSep hmem with ⟨q, hq, hcq⟩ | hts
    · obtain ⟨h1, hl1, _⟩ := sep_props t ht
      rcases halpha q hq t hcq with hu | hl
      · rw [h1] at hu
        exact absurd hu.symm Bool.true_eq_false.mp
      · rw [hl1] at hl
        exact absurd hl.symm Bool.true_eq_false.mp
    · simpa using hts
  refine ⟨hds, ?_⟩
  rw [rawParts, hds]
  exact splitOnChar_joinSep (by cases qs with
    | nil => simp at h2
    | cons q qs => simp) hnotin

theorem styleParts_nil {ct : CaseType} : styleParts ct [] = some [] := rfl

theorem detect_single_recover {q : List Char} (hg : goodSingle q) :
    stylePart (classifyParts [q]) (q.map Char.toLower) = some q := by
  rcases hg with hl | hu | ⟨c, cs, rfl, hc, hcs⟩
  · cases q with
    | nil => decide
    | cons c cs =>
      have hcl : classifyParts [c :: cs] = CaseType.LowerCase := by
        refine classifyParts_eq_lower.mpr ⟨?_, ?_⟩
        · intro hall
          have h1 := hall (c :: cs) (by simp) c (by simp)
          have h2 := isLower_not_isUpper (hl c (by simp))
          rw [h1] at h2
          exact Bool.true_eq_false.mp h2
        · intro p hp
          rw [List.mem_singleton] at hp
          subst hp
          exact hl
      have e : (c :: cs).map Char.toLower = c :: cs :=
        map_eq_self (fun d hd => toLower_eq_of_isLower (hl d hd))
      rw [hcl, e]
      simp only [stylePart]
      rw [e]
  · have hcu : classifyParts [q] = CaseType.UpperCase := by
      refine classifyParts_eq_upper.mpr ?_
      intro p hp
      rw [List.mem_singleton] at hp
      subst hp
      exact hu
    rw [hcu]
    simp only [stylePart]
    rw [map_toUpper_map_toLower hu]
  · cases cs with
    | nil =>
      have hcu : classifyParts [[c]] = CaseType.UpperCase := by
        refine classifyParts_eq_upper.mpr ?_
        intro p hp
        rw [List.mem_singleton] at hp
        subst hp
        intro d hd
        rw [List.mem_singleton] at hd
        subst hd
        exact hc
      rw [hcu]
      simp only [List.map_cons, List.map_nil, stylePart]
      rw [toUpper_toLower hc]
    | cons d ds =>
      have hcc : classifyParts [c :: d :: ds] = CaseType.Capitalise := by
        refine classifyParts_eq_cap.mpr ⟨?_, ?_⟩
        · intro hall
          have h1 := hall (c :: d :: ds) (by simp) d (by simp)
          have h2 := isLower_not_isUpper (hcs d (by simp))
          rw [h1] at h2
          exact Bool.true_eq_false.mp h2
        · intro hall
          have h1 := hall (c :: d :: ds) (by simp) c (by simp)
          have h2 := isUpper_not_isLower hc
          rw [h1] at h2
          exact Bool.true_eq_false.mp h2
      have e : (d :: ds).map Char.toLower = d :: ds :=
        map_eq_self (fun x hx => toLower_eq_of_isLower (hcs x hx))
      rw [hcc]
      simp only [List.map_cons, stylePart]
      rw [toUpper_toLower hc, toLower_eq_of_isLower (hcs d (by simp)),
        show (ds.map Char.toLower : List Char) = ds from
          map_eq_self (fun x hx => toLower_eq_of_isLower (hcs x (by simp [hx])))]

theorem detect_convert_single {n : List Char} (hg : goodSingle n) :
    (CaseInfo.detect n).1.convert (CaseInfo.detect n).2 = some n := by
  obtain ⟨hds, hrp⟩ := detect_no_sep (goodSingle_alpha hg)
  have hrec := detect_single_recover hg
  show CaseInfo.convert ⟨detectSeparator n, classifyParts (rawParts n)⟩
    ⟨(rawParts n).map (fun s => s.map Char.toLower)⟩ = some n
  rw [hds, hrp]
  simp [CaseInfo.convert, styleParts, hrec, sepStrOf, joinSep]

theorem styleParts_recover {ct : CaseType} {ps qs : List (List Char)}
    (h : styleParts ct ps = some qs) (hl : ∀ p ∈ ps, ∀ c ∈ p, c.isLower = true) :
    styleParts (classifyParts qs) ps = some qs := by
  have hα := styleParts_map_toLower h hl
  cases hcl : classifyParts qs with
  | UpperCase =>
    have hu := classifyParts_eq_upper.mp hcl
    rw [styleParts_upper, ← hα, List.map_map]
    congr 1
    refine map_eq_self (fun q hq => ?_)
    show (q.map Char.toLower).map Char.toUpper = q
    exact map_toUpper_map_toLower (hu q hq)
  | LowerCase =>
    have hlw := (classifyParts_eq_lower.mp hcl).2
    have hqs_eq : qs.map (fun q => q.map Char.toLower) = qs :=
      map_eq_self (fun q hq =>
        map_eq_self (fun c hc => toLower_eq_of_isLower (hlw q hq c hc)))
    have hps : ps = qs := by rw [← hα, hqs_eq]
    rw [styleParts_lower, hps, hqs_eq]
  | Capitalise =>
    obtain ⟨hnu, hnl⟩ := classifyParts_eq_cap.mp hcl
    cases ct with
    | Capitalise => exact h
    | UpperCase =>
      rw [styleParts_upper] at h
      obtain rfl : ps.map (fun p => p.map Char.toUpper) = qs := Option.some_inj.mp h
      refine absurd ?_ hnu
      intro q hq
      rw [List.mem_map] at hq
      obtain ⟨p, hp, rfl⟩ := hq
      exact map_toUpper_all_isUpper (hl p hp)
    | LowerCase =>
      rw [styleParts_lower] at h
      obtain rfl : ps.map (fun p => p.map Char.toLower) = qs := Option.some_inj.mp h
      refine absurd ?_ hnl
      intro q hq
      rw [List.mem_map] at hq
      obtain ⟨p, hp, rfl⟩ := hq
      intro c hc
      rw [List.mem_map] at hc
      obtain ⟨d, hd, rfl⟩ := hc
      rw [toLower_eq_of_isLower (hl p hp d hd)]
      exact hl p hp d hd

theorem sep_of_mem_all_cases : ∀ ci ∈ CaseInfo.all_cases,
    ci.separator = none ∨ ∃ s ∈ SEPARATORS, ci.separator = some s := by decide

theorem styleParts_some_of_ne {ct : CaseType} {ps : List (List Char)}
    (hne : ∀ p ∈ ps, p ≠ []) : ∃ qs, styleParts ct ps = some qs := by
  cases h : styleParts ct ps with
  | some qs => exact ⟨qs, rfl⟩
  | none =>
    obtain ⟨-, hm⟩ := styleParts_eq_none_iff.mp h
    exact absurd rfl (hne [] hm)

/-! ### Claim theorems -/

/-- C1 (amended): for every CaseInfo `c` of the fixed grid and every
NormalizedName `nn` with non-empty lowercase parts, except possibly when
`c` is the separator-free Capitalize combination and `nn` has two or more
parts, rendering succeeds, `detect` terminates on the rendering, and
re-rendering the detection result reproduces the rendered string. -/
theorem c1_round_trip_amended (ci : CaseInfo) (hci : ci ∈ CaseInfo.all_cases)
    (nn : NormalizedName)
    (hp : ∀ p ∈ nn.parts, p ≠ [] ∧ ∀ c ∈ p, c.isLower = true)
    (hshape : ci.separator ≠ none ∨ ci.part_type ≠ CaseType.Capitalise ∨
      nn.parts.length ≤ 1) :
    ∃ n, ci.convert nn = some n ∧
      (CaseInfo.detect n).1.convert (CaseInfo.detect n).2 = some n := by
  obtain ⟨sep, pt⟩ := ci
  obtain ⟨ps⟩ := nn
  simp only at hp hshape
  have hne : ∀ p ∈ ps, p ≠ [] := fun p h => (hp p h).1
  have hlow : ∀ p ∈ ps, ∀ c ∈ p, c.isLower = true := fun p h => (hp p h).2
  obtain ⟨qs, hqs⟩ := @styleParts_some_of_ne pt ps hne
  have halpha := styleParts_alpha hqs hlow
  have hα := styleParts_map_toLower hqs hlow
  refine ⟨joinSep (sepStrOf sep) qs, convert_of_styleParts hqs, ?_⟩
  cases sep with
  | none =>
    apply detect_convert_single
    cases pt with
    | LowerCase =>
      left
      rw [styleParts_lower] at hqs
      obtain rfl : ps.map (fun p => p.map Char.toLower) = qs := Option.some_inj.mp hqs
      refine joinSep_all ?_ (by simp [sepStrOf])
      intro q hq c hc
      rw [List.mem_map] at hq
      obtain ⟨p, hp2, rfl⟩ := hq
      rw [List.mem_map] at hc
      obtain ⟨d, hd, rfl⟩ := hc
      rw [toLower_eq_of_isLower (hlow p hp2 d hd)]
      exact hlow p hp2 d hd
    | UpperCase =>
      right
      left
      rw [styleParts_upper] at hqs
      obtain rfl : ps.map (fun p => p.map Char.toUpper) = qs := Option.some_inj.mp hqs
      refine joinSep_all ?_ (by simp [sepStrOf])
      intro q hq
      rw [List.mem_map] at hq
      obtain ⟨p, hp2, rfl⟩ := hq
      exact map_toUpper_all_isUpper (hlow p hp2)
    | Capitalise =>
      have hlen : ps.length ≤ 1 := by
        rcases hshape with h1 | h2 | h3
        · exact absurd rfl h1
        · exact absurd rfl h2
        · exact h3
      cases ps with
      | nil =>
        rw [styleParts_nil] at hqs
        obtain rfl : qs = [] := (Option.some_inj.mp hqs).symm
        exact Or.inl (by simp [sepStrOf, joinSep])
      | cons p ps2 =>
        have hps2 : ps2 = [] := by
          cases ps2 with
          | nil => rfl
          | cons a b => simp at hlen
        subst hps2
        obtain ⟨q, qs2, h1, h2, rfl⟩ := styleParts_cons_inv hqs
        rw [styleParts_nil] at h2
        obtain rfl : qs2 = [] := (Option.some_inj.mp h2).symm
        show goodSingle (joinSep (sepStrOf none) [q])
        rw [show joinSep (sepStrOf none) [q] = q from rfl]
        exact stylePart_good h1 (hlow p (by simp))
  | some s =>
    have hs : s ∈ SEPARATORS := by
      rcases sep_of_mem_all_cases _ hci with h1 | ⟨t, ht, he⟩
      · exact Option.noConfusion h1
      · have he2 : s = t := Option.some_inj.mp he
        rw [he2]
        exact ht
    cases ps with
    | nil =>
      rw [styleParts_nil] at hqs
      obtain rfl : qs = [] := (Option.some_inj.mp hqs).symm
      rw [show joinSep (sepStrOf (some s)) [] = [] from rfl]
      decide
    | cons p ps2 =>
      cases ps2 with
      | nil =>
        obtain ⟨q, qs2, h1, h2, rfl⟩ := styleParts_cons_inv hqs
        rw [styleParts_nil] at h2
        obtain rfl : qs2 = [] := (Option.some_inj.mp h2).symm
        rw [show joinSep (sepStrOf (some s)) [q] = q from rfl]
        exact detect_convert_single (stylePart_good h1 (hlow p (by simp)))
      | cons p2 ps3 =>
        have hlen2 : 2 ≤ qs.length := by
          rw [styleParts_length hqs]
          simp
        rw [show sepStrOf (some s) = [s] from rfl]
        obtain ⟨hds, hrp⟩ := detect_of_joinSep hs hlen2 halpha
        have hdet : CaseInfo.detect (joinSep [s] qs) =
            (⟨some s, classifyParts qs⟩, ⟨p :: p2 :: ps3⟩) := by
          rw [CaseInfo.detect, hds, hrp, hα]
        rw [hdet]
        exact convert_of_styleParts (styleParts_recover hqs hlow)

theorem c1_round_trip_amended_witness :
    ∃ n, CaseInfo.convert ⟨some '-', CaseType.Capitalise⟩
        ⟨[['m','y'], ['a','p','p']]⟩ = some n ∧
      (CaseInfo.detect n).1.convert (CaseInfo.detect n).2 = some n :=
  c1_round_trip_amended ⟨some '-', CaseType.Capitalise⟩ (by decide)
    ⟨[['m','y'], ['a','p','p']]⟩ (by decide) (by decide)

theorem c1_round_trip_cex :
    (⟨none, CaseType.Capitalise⟩ : CaseInfo) ∈ CaseInfo.all_cases ∧
    (∀ p ∈ [['a','b'], ['c','d']], p ≠ [] ∧ ∀ c ∈ p, c.isLower = true) ∧
    CaseInfo.convert ⟨none, CaseType.Capitalise⟩ ⟨[['a','b'], ['c','d']]⟩ =
      some ['A','b','C','d'] ∧
    (CaseInfo.detect ['A','b','C','d']).1.convert
      (CaseInfo.detect ['A','b','C','d']).2 = some ['A','b','c','d'] ∧
    (['A','b','c','d'] : List Char) ≠ ['A','b','C','d'] := by decide

theorem foldlM_passes (o n : NormalizedName) :
    ∀ (l : List CaseInfo) (x : List Char),
      List.foldlM (fun out case_info => do
          let search_for ← case_info.convert o
          let replace_with ← case_info.convert n
          return replaceList search_for replace_with out) x l =
        applyReplacePasses l o n x
  | [], _ => rfl
  | ci :: l, x => by
    rw [List.foldlM_cons, applyReplacePasses]
    cases h1 : ci.convert o with
    | none => simp [h1]
    | some s =>
      cases h2 : ci.convert n with
      | none => simp [h1, h2]
      | some r =>
        simp only [h1, h2, Option.some_bind]
        exact foldlM_passes o n l (replaceList s r x)

/-- C2: `transform_text` coincides with the spec's description — one literal,
non-overlapping, left-to-right, all-occurrences replacement pass per
combination of the fixed 18-element grid, in the fixed enumeration order,
each pass operating on the running output of the previous passes. -/
theorem c2_transform_text_passes (s : List Char) (o n : NormalizedName) :
    transform_text s o n = specTransformText s o n := by
  rw [transform_text, specTransformText,
    show CaseInfo.all_cases = specCombinations from by decide]
  exact foldlM_passes o n specCombinations s

/-- C3 (amended): UpperCase iff every character of every raw part is
uppercase; LowerCase iff not so and every character is lowercase; Capitalise
iff neither; and an input all of whose raw parts are empty classifies as
UpperCase (the vacuous tie-break).  A non-empty part with no alphabetic
characters fails both checks, so e.g. "123" classifies as Capitalise, not
UpperCase. -/
theorem c3_style_amended (n : List Char) :
    ((CaseInfo.detect n).1.part_type = CaseType.UpperCase ↔
      ∀ p ∈ rawParts n, ∀ c ∈ p, c.isUpper = true) ∧
    ((CaseInfo.detect n).1.part_type = CaseType.LowerCase ↔
      (¬∀ p ∈ rawParts n, ∀ c ∈ p, c.isUpper = true) ∧
        ∀ p ∈ rawParts n, ∀ c ∈ p, c.isLower = true) ∧
    ((CaseInfo.detect n).1.part_type = CaseType.Capitalise ↔
      (¬∀ p ∈ rawParts n, ∀ c ∈ p, c.isUpper = true) ∧
        ¬∀ p ∈ rawParts n, ∀ c ∈ p, c.isLower = true) ∧
    ((∀ p ∈ rawParts n, p = []) → (CaseInfo.detect n).1.part_type = CaseType.UpperCase) := by
  have h : (CaseInfo.detect n).1.part_type = classifyParts (rawParts n) := rfl
  rw [h]
  refine ⟨classifyParts_eq_upper, classifyParts_eq_lower, classifyParts_eq_cap, ?_⟩
  intro he
  refine classifyParts_eq_upper.mpr (fun p hp c hc => ?_)
  rw [he p hp] at hc
  exact absurd hc (List.not_mem_nil c)

theorem c3_style_amended_witness :
    (((CaseInfo.detect ['1','2','3']).1.part_type = CaseType.UpperCase ↔
      ∀ p ∈ rawParts ['1','2','3'], ∀ c ∈ p, c.isUpper = true) ∧
    (((CaseInfo.detect ['1','2','3']).1.part_type = CaseType.LowerCase ↔
      (¬∀ p ∈ rawParts ['1','2','3'], ∀ c ∈ p, c.isUpper = true) ∧
        ∀ p ∈ rawParts ['1','2','3'], ∀ c ∈ p, c.isLower = true)) ∧
    (((CaseInfo.detect ['1','2','3']).1.part_type = CaseType.Capitalise ↔
      (¬∀ p ∈ rawParts ['1','2','3'], ∀ c ∈ p, c.isUpper = true) ∧
        ¬∀ p ∈ rawParts ['1','2','3'], ∀ c ∈ p, c.isLower = true)) ∧
    ((∀ p ∈ rawParts ['1','2','3'], p = []) →
      (CaseInfo.detect ['1','2','3']).1.part_type = CaseType.UpperCase)) :=
  c3_style_amended ['1','2','3']

theorem c3_style_cex :
    (['1','2','3'] : List Char) ≠ [] ∧
    (∀ c ∈ (['1','2','3'] : List Char), c.isAlpha = false) ∧
    (CaseInfo.detect ['1','2','3']).1.part_type = CaseType.Capitalise ∧
    (CaseInfo.detect ['1','2','3']).1.part_type ≠ CaseType.UpperCase := by decide

/-- C4 (amended): for every non-empty input, the normalized parts preserve
the input's left-to-right segmentation — joining them with the detected
separator gives the lowercased input, and with no separator the whole
lowercased input is the single part; all parts are non-empty provided the
separator-split of the input has no empty segment.  (Inputs with leading,
trailing or doubled separators do produce empty parts.) -/
theorem c4_parts_amended (n : List Char) (_hn : n ≠ []) :
    (∀ sep, (CaseInfo.detect n).1.separator = some sep →
      joinSep [sep] (CaseInfo.detect n).2.parts = n.map Char.toLower) ∧
    ((CaseInfo.detect n).1.separator = none →
      (CaseInfo.detect n).2.parts = [n.map Char.toLower]) ∧
    ((∀ p ∈ rawParts n, p ≠ []) → ∀ p ∈ (CaseInfo.detect n).2.parts, p ≠ []) := by
  refine ⟨?_, ?_, ?_⟩
  · intro sep hsep
    have hds : detectSeparator n = some sep := hsep
    have hfind : SEPARATORS.find? (fun c => n.contains c) = some sep := by
      rw [detectSeparator] at hds
      exact hds
    have hsmem : sep ∈ SEPARATORS := List.mem_of_find?_eq_some hfind
    have h1 : (([sep] : List Char).map Char.toLower) = [sep] := by
      rw [List.map_cons, List.map_nil, (sep_props sep hsmem).2.2]
    show joinSep [sep] ((rawParts n).map (fun s => s.map Char.toLower)) = n.map Char.toLower
    rw [rawParts, hds]
    calc joinSep [sep] ((splitOnChar sep n).map (fun s => s.map Char.toLower))
        = joinSep (([sep] : List Char).map Char.toLower)
            ((splitOnChar sep n).map (fun s => s.map Char.toLower)) := by rw [h1]
      _ = (joinSep [sep] (splitOnChar sep n)).map Char.toLower :=
          (joinSep_map Char.toLower [sep] (splitOnChar sep n)).symm
      _ = n.map Char.toLower := by rw [joinSep_splitOnChar]
  · intro hnone
    have hds : detectSeparator n = none := hnone
    show (rawParts n).map (fun s => s.map Char.toLower) = [n.map Char.toLower]
    rw [rawParts, hds]
    rfl
  · intro hraw p hp
    have hp2 : p ∈ (rawParts n).map (fun s => s.map Char.toLower) := hp
    rw [List.mem_map] at hp2
    obtain ⟨r, hr, rfl⟩ := hp2
    intro he
    cases r with
    | nil => exact hraw [] hr rfl
    | cons c cs => simp at he

theorem c4_parts_amended_witness :
    ((∀ sep, (CaseInfo.detect ['a','_','B']).1.separator = some sep →
      joinSep [sep] (CaseInfo.detect ['a','_','B']).2.parts =
        (['a','_','B'] : List Char).map Char.toLower) ∧
    ((CaseInfo.detect ['a','_','B']).1.separator = none →
      (CaseInfo.detect ['a','_','B']).2.parts =
        [(['a','_','B'] : List Char).map Char.toLower]) ∧
    ((∀ p ∈ rawParts ['a','_','B'], p ≠ []) →
      ∀ p ∈ (CaseInfo.detect ['a','_','B']).2.parts, p ≠ [])) :=
  c4_parts_amended ['a','_','B'] (by decide)

theorem c4_parts_cex :
    (['a','_'] : List Char) ≠ [] ∧
    ([] : List Char) ∈ (CaseInfo.detect ['a','_']).2.parts := by decide

/-- C5: the detected separator is exactly the first of the fixed priority
list `[' ', '_', '-', '.', '/']` that occurs in the input, and when none
occurs the whole (lowercased) string is the single part. -/
theorem c5_separator_priority (n : List Char) :
    (CaseInfo.detect n).1.separator = firstSeparator n ∧
    (firstSeparator n = none →
      (CaseInfo.detect n).2.parts = [n.map Char.toLower]) := by
  have h1 : detectSeparator n = firstSeparator n := by
    rw [detectSeparator, firstSeparator, SEPARATORS]
    cases ha : n.contains ' ' <;> cases hb : n.contains '_' <;>
      cases hc : n.contains '-' <;> cases hd : n.contains '.' <;>
        cases he : n.contains '/' <;> simp_all [List.find?]
  refine ⟨h1, ?_⟩
  intro hnone
  have hds : detectSeparator n = none := by rw [h1, hnone]
  show (rawParts n).map (fun s => s.map Char.toLower) = [n.map Char.toLower]
  rw [rawParts, hds]
  rfl

theorem c5_separator_priority_witness :
    ((CaseInfo.detect ['a','b']).1.separator = firstSeparator ['a','b'] ∧
    (firstSeparator ['a','b'] = none →
      (CaseInfo.detect ['a','b']).2.parts =
        [(['a','b'] : List Char).map Char.toLower])) :=
  c5_separator_priority ['a','b']

theorem foldl_self_id (old : NormalizedName) (hne : ∀ p ∈ old.parts, p ≠ []) :
    ∀ (l : List CaseInfo) (x : List Char),
      List.foldlM (fun out case_info => do
          let search_for ← case_info.convert old
          let replace_with ← case_info.convert old
          return replaceList search_for replace_with out) x l = some x
  | [], _ => rfl
  | ci :: l, x => by
    rw [List.foldlM_cons]
    obtain ⟨qs, hqs⟩ := @styleParts_some_of_ne ci.part_type old.parts hne
    have hc : ci.convert old = some (joinSep (sepStrOf ci.separator) qs) :=
      convert_of_styleParts hqs
    simp only [hc]
    simp only [Option.bind_eq_bind, Option.some_bind, replaceList_self]
    exact foldl_self_id old hne l x

/-- C6: using the same name as both the old and the new name,
`transform_text` leaves every input unchanged (each of the 18 passes
replaces a string by itself). -/
theorem c6_idempotent (s : List Char) (old : NormalizedName)
    (hne : ∀ p ∈ old.parts, p ≠ []) : transform_text s old old = some s := by
  rw [transform_text]
  exact foldl_self_id old hne CaseInfo.all_cases s

theorem c6_idempotent_witness :
    transform_text ['x','y','z'] ⟨[['a','b']]⟩ ⟨[['a','b']]⟩ = some ['x','y','z'] :=
  c6_idempotent ['x','y','z'] ⟨[['a','b']]⟩ (by decide)

/-- C7: the case enumeration returns exactly the 18 combinations
(3 styles × 6 separator choices) in the fixed deterministic order — style
outer loop Capitalise, UpperCase, LowerCase; separator inner loop none,
space, underscore, hyphen, dot, slash. -/
theorem c7_all_cases_enum :
    CaseInfo.all_cases = specCombinations ∧ CaseInfo.all_cases.length = 18 := by decide

/-- C8: rendering fails exactly when the style is Capitalise and some part
is empty; for a NormalizedName whose parts are all non-empty, rendering
succeeds under every combination. -/
theorem c8_convert_failure (ci : CaseInfo) (nn : NormalizedName) :
    (ci.convert nn = none ↔
      ci.part_type = CaseType.Capitalise ∧ [] ∈ nn.parts) ∧
    ((∀ p ∈ nn.parts, p ≠ []) → ∃ out, ci.convert nn = some out) := by
  constructor
  · have key : ci.convert nn = none ↔ styleParts ci.part_type nn.parts = none := by
      rw [CaseInfo.convert]
      cases h : styleParts ci.part_type nn.parts with
      | none => simp [h]
      | some qs => simp [h]
    rw [key, styleParts_eq_none_iff]
  · intro hne
    obtain ⟨qs, hqs⟩ := @styleParts_some_of_ne ci.part_type nn.parts hne
    exact ⟨joinSep (sepStrOf ci.separator) qs, convert_of_styleParts hqs⟩

theorem c8_convert_failure_witness :
    ((CaseInfo.convert ⟨some '_', CaseType.Capitalise⟩ ⟨[['a','b']]⟩ = none ↔
      (⟨some '_', CaseType.Capitalise⟩ : CaseInfo).part_type = CaseType.Capitalise ∧
        [] ∈ ([[ 'a','b' ]] : List (List Char))) ∧
    ((∀ p ∈ ([[ 'a','b' ]] : List (List Char)), p ≠ []) →
      ∃ out, CaseInfo.convert ⟨some '_', CaseType.Capitalise⟩ ⟨[['a','b']]⟩ = some out)) :=
  c8_convert_failure ⟨some '_', CaseType.Capitalise⟩ ⟨[['a','b']]⟩

/-- C9: the literal scenario of the spec — with the old name detected from
"test-project" and the new name detected from "copied-project",
`transform_text` maps "Test Project" to "Copied Project" and "test_project"
to "copied_project". -/
theorem c9_literal_scenario :
    transform_text ['T','e','s','t',' ','P','r','o','j','e','c','t']
        (CaseInfo.detect ['t','e','s','t','-','p','r','o','j','e','c','t']).2
        (CaseInfo.detect ['c','o','p','i','e','d','-','p','r','o','j','e','c','t']).2 =
      some ['C','o','p','i','e','d',' ','P','r','o','j','e','c','t'] ∧
    transform_text ['t','e','s','t','_','p','r','o','j','e','c','t']
        (CaseInfo.detect ['t','e','s','t','-','p','r','o','j','e','c','t']).2
        (CaseInfo.detect ['c','o','p','i','e','d','-','p','r','o','j','e','c','t']).2 =
      some ['c','o','p','i','e','d','_','p','r','o','j','e','c','t'] := by
  decide

/-- C10: `detect` is total; on the empty string it returns separator none,
style UpperCase (both vacuous checks hold and UpperCase is tried first), and
a single empty part. -/
theorem c10_detect_empty :
    CaseInfo.detect [] = (⟨none, CaseType.UpperCase⟩, ⟨[[]]⟩) := by decide
